import Mathlib

/-!
Shallow embedding of the AcoPath Ant System core
(src/antsystem.cpp, src/antsystem.h, src/adaptivesystem.cpp).

Modelling conventions:
* C++ `double` values are modelled as rationals (`ℚ`); the exact update
  rules of the source are linear/rational, so every quantity of interest
  stays in `ℚ`.  `std::numeric_limits<double>::max()` (the initial
  `shortest` sentinel in `AntSystem::path`) is modelled as `Option ℚ`
  with `none` standing for the sentinel, against which every length
  compares strictly smaller.
* The per-step uniform draw in `AntSystem::goAnt`
  (`std::uniform_real_distribution<>(0, 1)` over a freshly seeded
  generator, src/antsystem.cpp:190-192) is supplied by an explicit
  stream `rs : ℕ → ℚ` of drawn values together with a running cursor;
  quantifying over all streams covers every possible sequence of draws.
* `edge2phero` (a map from `Edge` to pheromone level, keyed and hashed by
  the unique insertion `id`, src/antsystem.h:74) is modelled as an
  association list of entries in a fixed enumeration order; all theorems
  below quantify over every such list, hence over every enumeration
  order the container could exhibit.
* The recursion of `goAnt` is bounded by explicit fuel; the termination
  theorem for claim C6 shows the fuel bound `fuelBound` is never hit, so
  the fueled function coincides with the source's recursion.
-/

namespace AntSystem

/-- Edge record from adaptivesystem.cpp / adaptivesystem.h: ordered node
pair, weight (cost) and insertion id.  `Edge()` zero-initialises all
fields; comparison and hashing use only `id`. -/
structure Edge where
  edgeStart : Int
  edgeEnd : Int
  weight : ℚ
  id : Int
  deriving DecidableEq, Repr

/-- Default number of ants (src/antsystem.h:49). -/
def ANTS : Int := 250

/-- Default number of iterations (src/antsystem.h:50). -/
def ITERATIONS : Int := 150

/-- Initial pheromone quantity per edge (src/antsystem.h:51). -/
def PHERO_QUANTITY : ℚ := 100

/-- Pheromone exponent; the source's `A_PAR = 1` is an integral `double`
exponent to `std::pow`, modelled as a natural exponent
(src/antsystem.cpp:398). -/
def A_PAR : ℕ := 1

/-- Heuristic exponent; the source's `B_PAR = 5` is an integral `double`
exponent to `std::pow`, modelled as a natural exponent
(src/antsystem.cpp:403). -/
def B_PAR : ℕ := 5

/-- Evaporation rate (src/antsystem.cpp:393). -/
def EVAPO_RATE : ℚ := 1/2

/-- Default entry used for out-of-range `List.getD` reads in theorem
statements (mirrors the zero-initialised `Edge()`). -/
def dfltEntry : Edge × ℚ := (⟨0, 0, 0, 0⟩, 0)

/-- `AntSystem::isCyclic` (src/antsystem.cpp:327-334): inserts the nodes
into a set and reports a cycle when the set is smaller than the list;
`dedup` plays the role of the `std::set` of unique nodes. -/
def isCyclic (nodes : List Int) : Bool :=
  decide (nodes.dedup.length ≠ nodes.length)

/-- `AntSystem::availNeighbours` (src/antsystem.cpp:307-319): destination
of every stored edge whose start is `node`, in enumeration order. -/
def availNeighbours (e2p : List (Edge × ℚ)) (node : Int) : List Int :=
  (e2p.filter fun pr => decide (pr.1.edgeStart = node)).map fun pr => pr.1.edgeEnd

/-- The `find_if` predicate used by `AntSystem::pheromone`,
`AntSystem::heuInfo` and `AntSystem::calcTourLength`: the entry's edge
matches the ordered node pair. -/
def pairPred (a b : Int) (pr : Edge × ℚ) : Bool :=
  decide (pr.1.edgeStart = a ∧ pr.1.edgeEnd = b)

/-- `AntSystem::pheromone` (src/antsystem.cpp:289-299): value of the
first entry matching the ordered pair, else 0. -/
def pheromone (e2p : List (Edge × ℚ)) (a b : Int) : ℚ :=
  match e2p.find? (pairPred a b) with
  | some pr => pr.2
  | none => 0

/-- `AntSystem::heuInfo` (src/antsystem.cpp:270-280): inverse weight of
the first entry matching the ordered pair, else 0. -/
def heuInfo (e2p : List (Edge × ℚ)) (a b : Int) : ℚ :=
  match e2p.find? (pairPred a b) with
  | some pr => 1 / pr.1.weight
  | none => 0

/-- One summand of `AntSystem::prob`'s numerator/denominator:
`pow(pheromone, A_PAR) * pow(heuInfo, B_PAR)` (src/antsystem.cpp:250-257). -/
def transWeight (e2p : List (Edge × ℚ)) (a b : Int) : ℚ :=
  pheromone e2p a b ^ A_PAR * heuInfo e2p a b ^ B_PAR

/-- `AntSystem::prob` (src/antsystem.cpp:248-260).  In ℚ a zero
denominator yields 0 where C++ IEEE arithmetic would yield NaN/inf; the
theorems that depend on `prob` values assume the documented invariants
(positive weights and pheromone), under which the denominator is
positive. -/
def prob (e2p : List (Edge × ℚ)) (a b : Int) : ℚ :=
  transWeight e2p a b /
    ((availNeighbours e2p a).map fun n => transWeight e2p a n).sum

/-- The cumulative-probability scan of `AntSystem::goAnt`
(src/antsystem.cpp:193-199): running sum, stop at the first index whose
cumulative sum reaches the drawn value; if the loop runs off the end the
index equals the list length. -/
def selectIndexAux (value : ℚ) : List ℚ → ℚ → ℕ → ℕ
  | [], _, i => i
  | p :: rest, sum, i =>
    if value ≤ sum + p then i else selectIndexAux value rest (sum + p) (i + 1)

/-- Wrapper starting the scan with `sum = 0`, `index = 0`. -/
def selectIndex (probs : List ℚ) (value : ℚ) : ℕ :=
  selectIndexAux value probs 0 0

/-- All node ids mentioned by the stored edges (used only for the fuel
bound of the walk; the source needs no such bound because its recursion
is raw). -/
def nodesOf (e2p : List (Edge × ℚ)) : List Int :=
  ((e2p.map fun pr => pr.1.edgeStart) ++ (e2p.map fun pr => pr.1.edgeEnd)).dedup

/-- Fuel that claim C6 proves sufficient for `goAntAux` never to run out. -/
def fuelBound (e2p : List (Edge × ℚ)) : ℕ := (nodesOf e2p).length + 2

/-- The neighbour-selection step of `AntSystem::goAnt`
(src/antsystem.cpp:183-201): compute the transition probabilities of the
available neighbours in enumeration order, draw one uniform value, scan
cumulatively, and produce
`chosenNeighbour = neighs.size() > 0 ? neighs[index] : -1`.  When the
scan runs off the end (`index = neighs.size()`) with a non-empty
neighbour list the source reads `neighs[index]` out of bounds (undefined
behaviour); the model returns the `-1` failure sentinel there, and claim
C10 shows the branch is unreachable under the documented invariants. -/
def antChoice (e2p : List (Edge × ℚ)) (rs : ℕ → ℚ) (s : Int) (k : ℕ) : Int :=
  let neighs := availNeighbours e2p s
  let index := selectIndex (neighs.map fun n => prob e2p s n) (rs k)
  if 0 < neighs.length then neighs.getD index (-1) else -1

/-- `AntSystem::goAnt` (src/antsystem.cpp:167-210), fueled.  Returns the
final contents of the in-out `trace` argument (`some t`) or `none` when
the fuel runs out, together with the cursor into the stream of draws.
The branches mirror the source in order: cycle check on
`trace ++ [start]`, success check `start == end && trace.size() > 0`,
neighbour selection with one uniform draw (`antChoice`), the
`chosenNeighbour == -1` failure exit, and the tail call
`trace.push_back(start); goAnt(chosenNeighbour, end, trace)`. -/
def goAntAux (e2p : List (Edge × ℚ)) (rs : ℕ → ℚ) (e : Int) :
    ℕ → Int → List Int → ℕ → Option (List Int) × ℕ
  | 0, _, _, k => (none, k)
  | fuel + 1, s, trace, k =>
    if isCyclic (trace ++ [s]) then (some [], k)
    else if s = e ∧ 0 < trace.length then (some (trace ++ [s]), k)
    else
      let chosen : Int := antChoice e2p rs s k
      if chosen = -1 then (some [], k + 1)
      else goAntAux e2p rs e fuel chosen (trace ++ [s]) (k + 1)

/-- One complete ant walk as invoked by `AntSystem::path` (empty initial
trace); the out-of-fuel marker is mapped to the failure trace `[]`
(claim C6 shows it is never produced at `fuelBound`). -/
def goAntRun (e2p : List (Edge × ℚ)) (rs : ℕ → ℚ) (s e : Int) (k : ℕ) :
    List Int × ℕ :=
  match goAntAux e2p rs e (fuelBound e2p) s [] k with
  | (some t, kn) => (t, kn)
  | (none, kn) => ([], kn)

/-- Sum of the weights of the consecutive-pair edges of a tour, one
`find_if` lookup per adjacent pair (body of the loop in
`AntSystem::calcTourLength`, src/antsystem.cpp:224-235); a missing edge
contributes nothing. -/
def pairSum (e2p : List (Edge × ℚ)) : List Int → ℚ
  | a :: b :: rest =>
    (match e2p.find? (pairPred a b) with
     | some pr => pr.1.weight
     | none => 0) + pairSum e2p (b :: rest)
  | _ => 0

/-- `AntSystem::calcTourLength` (src/antsystem.cpp:218-238). -/
def calcTourLength (e2p : List (Edge × ℚ)) (tour : List Int) : ℚ :=
  if tour.length ≤ 1 then 0 else pairSum e2p tour

/-- `AntSystem::diffPheromone` (src/antsystem.cpp:120-123). -/
def diffPheromone (length : ℚ) : ℚ := PHERO_QUANTITY / length

/-- Inner loop of `AntSystem::updateTrails` (src/antsystem.cpp:151-153):
one `diffPheromone` contribution per position of the trace at which the
consecutive pair equals the given edge. -/
def traceAdd (a b : Int) (len : ℚ) : List Int → ℚ
  | x :: y :: rest =>
    (if x = a ∧ y = b then diffPheromone len else 0) + traceAdd a b len (y :: rest)
  | _ => 0

/-- Middle loop of `AntSystem::updateTrails` (src/antsystem.cpp:141-155):
walk the round's traces in order, skipping traces of length ≤ 1. -/
def reinforceEntry (a b : Int) : List (List Int × ℚ) → ℚ
  | [] => 0
  | (tr, len) :: rest =>
    (if tr.length ≤ 1 then 0 else traceAdd a b len tr) + reinforceEntry a b rest

/-- `AntSystem::updateTrails` (src/antsystem.cpp:131-157): first pass
multiplies every level by `(1 - EVAPO_RATE)`, second pass adds each
trace's contributions to each edge.  The round's traces are carried as
`(trace, tourLength)` pairs, matching the equal-keyed maps `antTraces`
and `tourLengths` built by `AntSystem::path`. -/
def updateTrails (e2p : List (Edge × ℚ)) (ts : List (List Int × ℚ)) :
    List (Edge × ℚ) :=
  (e2p.map fun pr => (pr.1, pr.2 * (1 - EVAPO_RATE))).map
    fun pr => (pr.1, pr.2 + reinforceEntry pr.1.edgeStart pr.1.edgeEnd ts)

/-- Number of positions at which a trace traverses the ordered pair
`(a, b)` (specification-side counterpart of `traceAdd`, used to state
claim C2's closed formula). -/
def pairCount (a b : Int) : List Int → ℕ
  | x :: y :: rest =>
    (if x = a ∧ y = b then 1 else 0) + pairCount a b (y :: rest)
  | _ => 0

/-- The best-path test of `AntSystem::path`
(src/antsystem.cpp:87): `tourLengths[j] > 0 && tourLengths[j] < shortest`,
with `none` standing for the initial `std::numeric_limits<double>::max()`. -/
def better (len : ℚ) : Option ℚ → Bool
  | none => decide (0 < len)
  | some q => decide (0 < len ∧ len < q)

/-- One best-path update step of `AntSystem::path` (src/antsystem.cpp:87-91)
applied to a recorded `(trace, tourLength)` entry; failed ants are
recorded as `([], 0)` (src/antsystem.cpp:95-96) and never pass the test. -/
def bestStep (bs : List Int × Option ℚ) (te : List Int × ℚ) :
    List Int × Option ℚ :=
  if better te.2 bs.2 = true then (te.1, some te.2) else bs

/-- The ant loop of one round of `AntSystem::path`
(src/antsystem.cpp:77-98): run `n` ants in order, recording for each the
`(trace, tourLength)` entry (`([], 0)` on failure) and threading the
best-path state through the successful ones exactly as the source does.
Returns (entries in ant order, best, shortest, stream cursor). -/
def roundAnts (e2p : List (Edge × ℚ)) (rs : ℕ → ℚ) (s e : Int) :
    ℕ → ℕ → List Int → Option ℚ →
    List (List Int × ℚ) × List Int × Option ℚ × ℕ
  | 0, k, best, short => ([], best, short, k)
  | n + 1, k, best, short =>
    let r := goAntRun e2p rs s e k
    if 1 < r.1.length ∧ r.1.head? = some s ∧ r.1.getLast? = some e then
      let len := calcTourLength e2p r.1
      let bs := if better len short = true then (r.1, some len) else (best, short)
      let rest := roundAnts e2p rs s e n r.2 bs.1 bs.2
      ((r.1, len) :: rest.1, rest.2)
    else
      let rest := roundAnts e2p rs s e n r.2 best short
      (([], 0) :: rest.1, rest.2)

/-- The iteration loop of `AntSystem::path` (src/antsystem.cpp:73-101):
each round runs the ants and then calls `updateTrails` once with the
round's entries. -/
def pathRounds (rs : ℕ → ℚ) (s e : Int) (ants : ℕ) :
    ℕ → List (Edge × ℚ) → List Int → Option ℚ → ℕ → List Int
  | 0, _, best, _, _ => best
  | i + 1, e2p, best, short, k =>
    let r := roundAnts e2p rs s e ants k best short
    pathRounds rs s e ants i (updateTrails e2p r.1) r.2.1 r.2.2.1 r.2.2.2

/-- `AntSystem::path` (src/antsystem.cpp:68-104): empty initial best
path, sentinel `shortest`, stream cursor 0. -/
def pathACO (e2p : List (Edge × ℚ)) (ants iterations : ℕ) (s e : Int)
    (rs : ℕ → ℚ) : List Int :=
  pathRounds rs s e ants iterations e2p [] none 0

/-- The `(trace, tourLength)` entries of one round together with the
advanced stream cursor, without the interleaved best-path bookkeeping
(proved below to agree with `roundAnts`). -/
def runAnts (e2p : List (Edge × ℚ)) (rs : ℕ → ℚ) (s e : Int) :
    ℕ → ℕ → List (List Int × ℚ) × ℕ
  | 0, k => ([], k)
  | n + 1, k =>
    let r := goAntRun e2p rs s e k
    let ent :=
      if 1 < r.1.length ∧ r.1.head? = some s ∧ r.1.getLast? = some e then
        (r.1, calcTourLength e2p r.1)
      else (([] : List Int), (0 : ℚ))
    let rest := runAnts e2p rs s e n r.2
    (ent :: rest.1, rest.2)

/-- All `(trace, tourLength)` entries produced across a whole run, in
generation order, with the pheromone table evolving by `updateTrails`
between rounds exactly as in `AntSystem::path`. -/
def runEntries (rs : ℕ → ℚ) (s e : Int) (ants : ℕ) :
    ℕ → List (Edge × ℚ) → ℕ → List (List Int × ℚ)
  | 0, _, _ => []
  | i + 1, e2p, k =>
    let r := runAnts e2p rs s e ants k
    r.1 ++ runEntries rs s e ants i (updateTrails e2p r.1) r.2

/-- The edge-insertion part of `AntSystem::initTopo`
(src/antsystem.cpp:380-385): every edge enters the table with the
constant initial pheromone quantity.  (The JSON parsing around it is an
out-of-scope external collaborator per the specification.) -/
def initTopo (edges : List Edge) : List (Edge × ℚ) :=
  edges.map fun ed => (ed, PHERO_QUANTITY)

/-- A sequence of pheromone-update rounds applied in order (the state
evolution observed across calls of `AntSystem::updateTrails`). -/
def applyRounds : List (List (List Int × ℚ)) → List (Edge × ℚ) → List (Edge × ℚ)
  | [], e2p => e2p
  | r :: rest, e2p => applyRounds rest (updateTrails e2p r)

/-- Modelled from the spec: the body of `AntSystem::insertEdge` is not
among the provided sources (src/antsystem.h:60 has only its
declaration).  Spec section 4.1: append an edge with a new, strictly
increasing identity; fail with `InvalidEdge` when `weight <= 0`; on
success reset the entire pheromone table to the initial quantity for all
edges.  The `Bool` result records whether `InvalidEdge` was raised, in
which case the state components are returned untouched. -/
def insertEdge (e2p : List (Edge × ℚ)) (nextId : Int) (src dst : Int) (w : ℚ) :
    (List (Edge × ℚ) × Int) × Bool :=
  if w ≤ 0 then ((e2p, nextId), true)
  else
    (((e2p.map fun pr => (pr.1, PHERO_QUANTITY)) ++
        [(⟨src, dst, w, nextId + 1⟩, PHERO_QUANTITY)], nextId + 1), false)

/-- The ants/iterations fallback of the `AntSystem` constructor
(src/antsystem.cpp:43-52): the given pair is kept only when both
components are positive, otherwise both defaults are installed. -/
def initParams (ants iterations : Int) : Int × Int :=
  if 0 < ants ∧ 0 < iterations then (ants, iterations) else (ANTS, ITERATIONS)

/-! ## Pheromone update: closed formula and sign lemmas -/

lemma traceAdd_eq_pairCount (a b : Int) (len : ℚ) :
    ∀ tr : List Int, traceAdd a b len tr = (pairCount a b tr : ℚ) * diffPheromone len := by
  intro tr
  induction tr with
  | nil => simp [traceAdd, pairCount]
  | cons x tail ih =>
    cases tail with
    | nil => simp [traceAdd, pairCount]
    | cons y rest =>
      by_cases h : x = a ∧ y = b
      · obtain ⟨rfl, rfl⟩ := h
        simp [traceAdd, pairCount, ih, add_mul]
      · simp [traceAdd, pairCount, h, ih]

lemma reinforceEntry_eq_sum (a b : Int) :
    ∀ ts : List (List Int × ℚ), reinforceEntry a b ts =
      ((ts.filter fun te => decide (1 < te.1.length)).map
        (fun te => (pairCount a b te.1 : ℚ) * (PHERO_QUANTITY / te.2))).sum := by
  intro ts
  induction ts with
  | nil => simp [reinforceEntry]
  | cons te rest ih =>
    obtain ⟨tr, len⟩ := te
    by_cases h : tr.length ≤ 1
    · have h2 : ¬ (1 < tr.length) := by omega
      simp [reinforceEntry, h, h2, ih]
    · have h2 : 1 < tr.length := by omega
      simp [reinforceEntry, h, h2, ih, traceAdd_eq_pairCount, diffPheromone]

lemma updateTrails_length (e2p : List (Edge × ℚ)) (ts : List (List Int × ℚ)) :
    (updateTrails e2p ts).length = e2p.length := by
  simp [updateTrails]

lemma updateTrails_getElem (e2p : List (Edge × ℚ)) (ts : List (List Int × ℚ))
    (i : ℕ) (hi : i < e2p.length) (hi2 : i < (updateTrails e2p ts).length) :
    (updateTrails e2p ts)[i] =
      ((e2p[i]).1, (e2p[i]).2 * (1 - EVAPO_RATE) +
        reinforceEntry (e2p[i]).1.edgeStart (e2p[i]).1.edgeEnd ts) := by
  simp [updateTrails]

/-- C2: one call of the pheromone update sets each stored edge's level to
`old * (1 - EVAPO_RATE)` plus the sum, over the round's traces of length
greater than 1, of one `PHERO_QUANTITY / tourLength` contribution per
occurrence of the edge's ordered node pair as a consecutive pair of the
trace; the edge keys are untouched, and when every trace of the round
has length at most 1 the new level is exactly `old * (1 - EVAPO_RATE)`. -/
theorem c2_updateTrails_formula (e2p : List (Edge × ℚ)) (ts : List (List Int × ℚ))
    (i : ℕ) (hi : i < e2p.length) :
    ((updateTrails e2p ts).getD i dfltEntry).1 = (e2p.getD i dfltEntry).1 ∧
    ((updateTrails e2p ts).getD i dfltEntry).2 =
      (e2p.getD i dfltEntry).2 * (1 - EVAPO_RATE) +
      ((ts.filter fun te => decide (1 < te.1.length)).map
        (fun te => (pairCount (e2p.getD i dfltEntry).1.edgeStart
            (e2p.getD i dfltEntry).1.edgeEnd te.1 : ℚ) * (PHERO_QUANTITY / te.2))).sum ∧
    ((∀ te ∈ ts, te.1.length ≤ 1) →
      ((updateTrails e2p ts).getD i dfltEntry).2 = (e2p.getD i dfltEntry).2 * (1 - EVAPO_RATE)) := by
  have hi2 : i < (updateTrails e2p ts).length := by rwa [updateTrails_length]
  rw [List.getD_eq_getElem (updateTrails e2p ts) dfltEntry hi2,
      List.getD_eq_getElem e2p dfltEntry hi, updateTrails_getElem e2p ts i hi hi2]
  refine ⟨rfl, by simp [reinforceEntry_eq_sum], ?_⟩
  intro hall
  have : ts.filter (fun te => decide (1 < te.1.length)) = [] := by
    rw [List.filter_eq_nil_iff]
    intro te hte
    have := hall te hte
    simp only [decide_eq_true_eq]
    omega
  simp [reinforceEntry_eq_sum, this]

/-- Witness for C2 at a concrete table, round and index. -/
theorem c2_updateTrails_formula_witness :
    0 < [((⟨0, 1, 1, 1⟩ : Edge), (100 : ℚ))].length ∧
    ((((updateTrails [((⟨0, 1, 1, 1⟩ : Edge), (100 : ℚ))] [([0, 1], 1)]).getD 0 dfltEntry).1 =
        (([((⟨0, 1, 1, 1⟩ : Edge), (100 : ℚ))]).getD 0 dfltEntry).1) ∧
      (((updateTrails [((⟨0, 1, 1, 1⟩ : Edge), (100 : ℚ))] [([0, 1], 1)]).getD 0 dfltEntry).2 =
        (([((⟨0, 1, 1, 1⟩ : Edge), (100 : ℚ))]).getD 0 dfltEntry).2 * (1 - EVAPO_RATE) +
        ((([([0, 1], 1)] : List (List Int × ℚ)).filter fun te => decide (1 < te.1.length)).map
          (fun te => (pairCount (([((⟨0, 1, 1, 1⟩ : Edge), (100 : ℚ))]).getD 0 dfltEntry).1.edgeStart
              (([((⟨0, 1, 1, 1⟩ : Edge), (100 : ℚ))]).getD 0 dfltEntry).1.edgeEnd te.1 : ℚ) *
              (PHERO_QUANTITY / te.2))).sum) ∧
      ((∀ te ∈ ([([0, 1], 1)] : List (List Int × ℚ)), te.1.length ≤ 1) →
        ((updateTrails [((⟨0, 1, 1, 1⟩ : Edge), (100 : ℚ))] [([0, 1], 1)]).getD 0 dfltEntry).2 =
          (([((⟨0, 1, 1, 1⟩ : Edge), (100 : ℚ))]).getD 0 dfltEntry).2 * (1 - EVAPO_RATE))) :=
  ⟨by simp, c2_updateTrails_formula [((⟨0, 1, 1, 1⟩ : Edge), (100 : ℚ))] [([0, 1], 1)] 0 (by simp)⟩

lemma diffPheromone_nonneg {len : ℚ} (h : 0 ≤ len) : 0 ≤ diffPheromone len := by
  unfold diffPheromone PHERO_QUANTITY
  positivity

lemma traceAdd_nonneg (a b : Int) {len : ℚ} (h : 0 ≤ len) :
    ∀ tr : List Int, 0 ≤ traceAdd a b len tr := by
  intro tr
  rw [traceAdd_eq_pairCount]
  have := diffPheromone_nonneg h
  positivity

lemma reinforceEntry_nonneg (a b : Int) {ts : List (List Int × ℚ)}
    (h : ∀ te ∈ ts, 0 ≤ te.2) : 0 ≤ reinforceEntry a b ts := by
  induction ts with
  | nil => simp [reinforceEntry]
  | cons te rest ih =>
    obtain ⟨tr, len⟩ := te
    have h1 : 0 ≤ len := h (tr, len) (by simp)
    have h2 : 0 ≤ reinforceEntry a b rest := ih fun te hte => h te (by simp [hte])
    by_cases hl : tr.length ≤ 1
    · simpa [reinforceEntry, hl] using h2
    · have := traceAdd_nonneg a b h1 tr
      simp only [reinforceEntry, hl, if_false]
      linarith

lemma updateTrails_nonneg {e2p : List (Edge × ℚ)} {ts : List (List Int × ℚ)}
    (he : ∀ pr ∈ e2p, 0 ≤ pr.2) (hts : ∀ te ∈ ts, 0 ≤ te.2) :
    ∀ pr ∈ updateTrails e2p ts, 0 ≤ pr.2 := by
  intro pr hpr
  simp only [updateTrails, List.mem_map] at hpr
  obtain ⟨q, ⟨p0, hp0, rfl⟩, rfl⟩ := hpr
  have h1 : 0 ≤ p0.2 := he p0 hp0
  have h2 : 0 ≤ reinforceEntry p0.1.edgeStart p0.1.edgeEnd ts := reinforceEntry_nonneg _ _ hts
  have h3 : (0 : ℚ) ≤ 1 - EVAPO_RATE := by norm_num [EVAPO_RATE]
  simp only
  have := mul_nonneg h1 h3
  linarith

lemma applyRounds_nonneg {rounds : List (List (List Int × ℚ))} :
    ∀ {e2p : List (Edge × ℚ)}, (∀ pr ∈ e2p, 0 ≤ pr.2) →
      (∀ r ∈ rounds, ∀ te ∈ r, 0 ≤ te.2) →
      ∀ pr ∈ applyRounds rounds e2p, 0 ≤ pr.2 := by
  induction rounds with
  | nil => intro e2p he _; simpa [applyRounds] using he
  | cons r rest ih =>
    intro e2p he hr
    have h1 : ∀ te ∈ r, 0 ≤ te.2 := hr r (by simp)
    have h2 : ∀ r2 ∈ rest, ∀ te ∈ r2, 0 ≤ te.2 := fun r2 hr2 => hr r2 (by simp [hr2])
    exact ih (updateTrails_nonneg he h1) h2

/-- C4: every pheromone level starts at the constant initial quantity,
and any sequence of update rounds whose recorded tour lengths are
non-negative (so that each reinforcement adds a non-negative amount,
while evaporation multiplies by `1 - EVAPO_RATE` with
`EVAPO_RATE = 1/2 ∈ (0,1)`) keeps every level non-negative at every
observable point, i.e. after every such sequence of calls. -/
theorem c4_pheromone_nonneg (edges : List Edge) (rounds : List (List (List Int × ℚ)))
    (h : ∀ r ∈ rounds, ∀ te ∈ r, 0 ≤ te.2) :
    (∀ pr ∈ initTopo edges, pr.2 = PHERO_QUANTITY) ∧
    (∀ pr ∈ applyRounds rounds (initTopo edges), 0 ≤ pr.2) := by
  constructor
  · intro pr hpr
    simp only [initTopo, List.mem_map] at hpr
    obtain ⟨ed, _, rfl⟩ := hpr
    rfl
  · refine applyRounds_nonneg ?_ h
    intro pr hpr
    simp only [initTopo, List.mem_map] at hpr
    obtain ⟨ed, _, rfl⟩ := hpr
    norm_num [PHERO_QUANTITY]

/-- Witness for C4 on a concrete topology and two concrete rounds. -/
theorem c4_pheromone_nonneg_witness :
    (∀ r ∈ ([[([0, 1], 2)], [([], 0)]] : List (List (List Int × ℚ))), ∀ te ∈ r, 0 ≤ te.2) ∧
    ((∀ pr ∈ initTopo [(⟨0, 1, 1, 1⟩ : Edge)], pr.2 = PHERO_QUANTITY) ∧
      (∀ pr ∈ applyRounds ([[([0, 1], 2)], [([], 0)]] : List (List (List Int × ℚ)))
          (initTopo [(⟨0, 1, 1, 1⟩ : Edge)]), 0 ≤ pr.2)) :=
  ⟨by norm_num, c4_pheromone_nonneg [(⟨0, 1, 1, 1⟩ : Edge)] [[([0, 1], 2)], [([], 0)]]
    (by norm_num)⟩

/-! ## Edge insertion and constructor parameters -/

/-- C7: `insertEdge` with non-positive weight raises `InvalidEdge` (the
`true` flag) and returns the pheromone table and id counter exactly as
they were.  (spec-modelled: the body of `AntSystem::insertEdge` is not
among the provided sources.) -/
theorem c7_insertEdge_rejects (e2p : List (Edge × ℚ)) (nextId src dst : Int)
    (w : ℚ) (hw : w ≤ 0) :
    insertEdge e2p nextId src dst w = ((e2p, nextId), true) := by
  simp [insertEdge, hw]

/-- Witness for C7 at weight 0. -/
theorem c7_insertEdge_rejects_witness :
    ((0 : ℚ) ≤ 0) ∧
    insertEdge [((⟨0, 1, 1, 1⟩ : Edge), (100 : ℚ))] 1 5 6 0 =
      (([((⟨0, 1, 1, 1⟩ : Edge), (100 : ℚ))], 1), true) :=
  ⟨le_refl 0, c7_insertEdge_rejects [((⟨0, 1, 1, 1⟩ : Edge), (100 : ℚ))] 1 5 6 0 (le_refl 0)⟩

/-- C9 counterexample: the claim says positive arguments are kept as
given, but `initParams 5 0` replaces the positive ants argument 5 with
the default 250 because the other argument is non-positive. -/
theorem c9_counterexample : ¬ ((initParams 5 0).1 = 5) := by decide

/-- C9 (amended): non-positive ants/iterations are not rejected; when
either argument is non-positive, both are silently replaced by the
documented defaults `ANTS = 250` and `ITERATIONS = 150`; the given
arguments are kept only when both are positive. -/
theorem c9_params_fallback (ants iterations : Int) :
    (0 < ants ∧ 0 < iterations → initParams ants iterations = (ants, iterations)) ∧
    (ants ≤ 0 ∨ iterations ≤ 0 → initParams ants iterations = (ANTS, ITERATIONS)) := by
  constructor
  · intro h
    simp [initParams, h]
  · intro h
    have : ¬ (0 < ants ∧ 0 < iterations) := by omega
    simp [initParams, this]

/-- Witness for C9: both branches at concrete arguments. -/
theorem c9_params_fallback_witness :
    initParams 5 7 = (5, 7) ∧ initParams 5 0 = (ANTS, ITERATIONS) :=
  ⟨(c9_params_fallback 5 7).1 (by decide), (c9_params_fallback 5 0).2 (by decide)⟩

/-! ## The ant walk: shape, termination, roulette bounds -/

lemma isCyclic_eq_false_iff {nodes : List Int} : isCyclic nodes = false ↔ nodes.Nodup := by
  unfold isCyclic
  simp only [decide_eq_false_iff_not, not_not]
  constructor
  · intro h
    exact List.dedup_eq_self.mp ((List.dedup_sublist nodes).eq_of_length h)
  · intro h
    rw [List.dedup_eq_self.mpr h]

/-- An ordered node pair is realised by some stored edge. -/
def edgeRel (e2p : List (Edge × ℚ)) (a b : Int) : Prop :=
  ∃ pr ∈ e2p, pr.1.edgeStart = a ∧ pr.1.edgeEnd = b

lemma edgeRel_of_mem_availNeighbours {e2p : List (Edge × ℚ)} {s n : Int}
    (h : n ∈ availNeighbours e2p s) : edgeRel e2p s n := by
  simp only [availNeighbours, List.mem_map, List.mem_filter, decide_eq_true_eq] at h
  obtain ⟨pr, ⟨hpr, hs⟩, rfl⟩ := h
  exact ⟨pr, hpr, hs, rfl⟩

lemma mem_nodesOf_of_mem_availNeighbours {e2p : List (Edge × ℚ)} {s n : Int}
    (h : n ∈ availNeighbours e2p s) : n ∈ nodesOf e2p := by
  obtain ⟨pr, hpr, _, rfl⟩ := edgeRel_of_mem_availNeighbours h
  unfold nodesOf
  rw [List.mem_dedup, List.mem_append]
  exact Or.inr (List.mem_map.mpr ⟨pr, hpr, rfl⟩)

lemma getD_neg_mem {l : List Int} {i : ℕ} (h : l.getD i (-1) ≠ -1) : l.getD i (-1) ∈ l := by
  rcases lt_or_ge i l.length with hlt | hge
  · rw [List.getD_eq_getElem l _ hlt]
    exact List.getElem_mem hlt
  · rw [List.getD_eq_getElem?_getD, List.getElem?_eq_none hge] at h
    exact absurd rfl h

lemma antChoice_mem {e2p : List (Edge × ℚ)} {rs : ℕ → ℚ} {s : Int} {k : ℕ}
    (h : antChoice e2p rs s k ≠ -1) : antChoice e2p rs s k ∈ availNeighbours e2p s := by
  unfold antChoice at h ⊢
  by_cases hl : 0 < (availNeighbours e2p s).length
  · simp only [hl, if_true] at h ⊢
    exact getD_neg_mem h
  · simp only [hl, if_false] at h
    exact absurd rfl h

/-- One-step unfolding of the fueled walk. -/
lemma goAntAux_succ (e2p : List (Edge × ℚ)) (rs : ℕ → ℚ) (e : Int)
    (fuel : ℕ) (s : Int) (trace : List Int) (k : ℕ) :
    goAntAux e2p rs e (fuel + 1) s trace k =
      if isCyclic (trace ++ [s]) then (some [], k)
      else if s = e ∧ 0 < trace.length then (some (trace ++ [s]), k)
      else if antChoice e2p rs s k = -1 then (some [], k + 1)
      else goAntAux e2p rs e fuel (antChoice e2p rs s k) (trace ++ [s]) (k + 1) := by
  rw [goAntAux]

lemma head?_append_singleton_append (trace : List Int) (s c : Int) :
    ((trace ++ [s]) ++ [c]).head? = (trace ++ [s]).head? := by
  cases trace <;> simp

/-- Invariant lemma for the walk: from any call whose accumulated
`trace ++ [start]` is edge-connected, a terminating run returns either
the failure trace `[]` or an edge-connected duplicate-free path from the
first accumulated node to the target. -/
lemma goAntAux_shape (e2p : List (Edge × ℚ)) (rs : ℕ → ℚ) (e : Int) :
    ∀ (fuel : ℕ) (s : Int) (trace : List Int) (k : ℕ) (t : List Int) (kn : ℕ),
      goAntAux e2p rs e fuel s trace k = (some t, kn) →
      List.Chain' (edgeRel e2p) (trace ++ [s]) →
      t = [] ∨ (t.Nodup ∧ t.head? = (trace ++ [s]).head? ∧ t.getLast? = some e ∧
        List.Chain' (edgeRel e2p) t) := by
  intro fuel
  induction fuel with
  | zero =>
    intro s trace k t kn h _
    simp [goAntAux] at h
  | succ fuel ih =>
    intro s trace k t kn h hchain
    rw [goAntAux_succ] at h
    by_cases hcyc : isCyclic (trace ++ [s]) = true
    · rw [if_pos hcyc] at h
      exact Or.inl (Option.some.inj (congrArg Prod.fst h)).symm
    · have hnodup : (trace ++ [s]).Nodup :=
        isCyclic_eq_false_iff.mp (Bool.not_eq_true _ ▸ hcyc)
      rw [if_neg hcyc] at h
      by_cases hse : s = e ∧ 0 < trace.length
      · rw [if_pos hse] at h
        have ht : trace ++ [s] = t := Option.some.inj (congrArg Prod.fst h)
        right
        refine ⟨ht ▸ hnodup, by rw [← ht], ?_, ht ▸ hchain⟩
        rw [← ht, List.getLast?_concat, hse.1]
      · rw [if_neg hse] at h
        by_cases hch : antChoice e2p rs s k = -1
        · rw [if_pos hch] at h
          exact Or.inl (Option.some.inj (congrArg Prod.fst h)).symm
        · rw [if_neg hch] at h
          have hrel : edgeRel e2p s (antChoice e2p rs s k) :=
            edgeRel_of_mem_availNeighbours (antChoice_mem hch)
          have hchain2 :
              List.Chain' (edgeRel e2p) ((trace ++ [s]) ++ [antChoice e2p rs s k]) := by
            rw [List.chain'_append]
            refine ⟨hchain, List.chain'_singleton _, ?_⟩
            intro x hx y hy
            rw [List.getLast?_concat] at hx
            rw [List.head?_cons] at hy
            rw [Option.mem_def, Option.some.injEq] at hx hy
            rw [← hx, ← hy]
            exact hrel
          rcases ih (antChoice e2p rs s k) (trace ++ [s]) (k + 1) t kn h hchain2 with
            h1 | ⟨h1, h2, h3, h4⟩
          · exact Or.inl h1
          · exact Or.inr ⟨h1, by rw [h2, head?_append_singleton_append], h3, h4⟩

/-- C3: every ant walk started with an empty trace returns either the
empty trace (failure) or a simple path — no repeated node — whose first
element is the walk's start node and whose last element is the target. -/
theorem c3_goAnt_shape (e2p : List (Edge × ℚ)) (rs : ℕ → ℚ) (s e : Int) (k : ℕ) :
    (goAntRun e2p rs s e k).1 = [] ∨
    ((goAntRun e2p rs s e k).1.Nodup ∧ (goAntRun e2p rs s e k).1.head? = some s ∧
      (goAntRun e2p rs s e k).1.getLast? = some e) := by
  unfold goAntRun
  rcases hres : goAntAux e2p rs e (fuelBound e2p) s [] k with ⟨o, kn⟩
  cases o with
  | none => simp
  | some t =>
    have := goAntAux_shape e2p rs e (fuelBound e2p) s [] k t kn hres
      (by simp)
    rcases this with h | ⟨h1, h2, h3, _⟩
    · simp [h]
    · right
      simpa using ⟨h1, h2, h3⟩

lemma nodup_length_le_card {l : List Int} {S : Finset Int} (hnd : l.Nodup)
    (hsub : ∀ x ∈ l, x ∈ S) : l.length ≤ S.card := by
  rw [← List.toFinset_card_of_nodup hnd]
  exact Finset.card_le_card fun x hx => hsub x (List.mem_toFinset.mp hx)

/-- Termination invariant: with enough fuel relative to the unvisited
node budget, the fueled walk never reports fuel exhaustion. -/
lemma goAntAux_ne_none (e2p : List (Edge × ℚ)) (rs : ℕ → ℚ) (e : Int) (S : Finset Int)
    (hS : ∀ x ∈ nodesOf e2p, x ∈ S) :
    ∀ (fuel : ℕ) (s : Int) (trace : List Int) (k : ℕ), s ∈ S → (∀ x ∈ trace, x ∈ S) →
      trace.Nodup → S.card + 1 ≤ fuel + trace.length →
      (goAntAux e2p rs e fuel s trace k).1 ≠ none := by
  intro fuel
  induction fuel with
  | zero =>
    intro s trace k _ hsub hnd hcard
    exact absurd (nodup_length_le_card hnd hsub) (by omega)
  | succ fuel ih =>
    intro s trace k hsS hsub hnd hcard
    rw [goAntAux_succ]
    by_cases hcyc : isCyclic (trace ++ [s]) = true
    · simp [hcyc]
    · rw [if_neg hcyc]
      have hnodup : (trace ++ [s]).Nodup :=
        isCyclic_eq_false_iff.mp (Bool.not_eq_true _ ▸ hcyc)
      by_cases hse : s = e ∧ 0 < trace.length
      · simp [hse]
      · rw [if_neg hse]
        by_cases hch : antChoice e2p rs s k = -1
        · simp [hch]
        · rw [if_neg hch]
          have hmem : antChoice e2p rs s k ∈ nodesOf e2p :=
            mem_nodesOf_of_mem_availNeighbours (antChoice_mem hch)
          refine ih (antChoice e2p rs s k) (trace ++ [s]) (k + 1) (hS _ hmem) ?_ hnodup ?_
          · intro x hx
            rcases List.mem_append.mp hx with h1 | h1
            · exact hsub x h1
            · rw [List.mem_singleton.mp h1]; exact hsS
          · have hlen : trace.length + 1 ≤ S.card := by
              have := nodup_length_le_card hnodup fun x hx => by
                rcases List.mem_append.mp hx with h1 | h1
                · exact hsub x h1
                · rw [List.mem_singleton.mp h1]; exact hsS
              simpa using this
            simp only [List.length_append, List.length_singleton]
            omega

/-- C6: every single ant walk terminates — on any finite stored graph,
the walk from an empty trace completes (succeeds or fails) within the
fuel bound `|nodes| + 2` forced by the finite node count and the strict
cycle rejection, so the fuel-exhaustion marker is never produced. -/
theorem c6_goAnt_terminates (e2p : List (Edge × ℚ)) (rs : ℕ → ℚ) (s e : Int) (k : ℕ) :
    (goAntAux e2p rs e (fuelBound e2p) s [] k).1 ≠ none := by
  refine goAntAux_ne_none e2p rs e (insert s (nodesOf e2p).toFinset) ?_
    (fuelBound e2p) s [] k (Finset.mem_insert_self s _) (by simp) List.nodup_nil ?_
  · intro x hx
    exact Finset.mem_insert_of_mem (List.mem_toFinset.mpr hx)
  · have h1 : (insert s (nodesOf e2p).toFinset).card ≤ (nodesOf e2p).toFinset.card + 1 :=
      Finset.card_insert_le s _
    have h2 : (nodesOf e2p).toFinset.card ≤ (nodesOf e2p).length :=
      List.toFinset_card_le _
    unfold fuelBound
    simp only [List.length_nil]
    omega

lemma selectIndexAux_lt (value : ℚ) :
    ∀ (probs : List ℚ) (sum : ℚ) (i : ℕ), probs ≠ [] → value ≤ sum + probs.sum →
      selectIndexAux value probs sum i < i + probs.length := by
  intro probs
  induction probs with
  | nil => simp
  | cons p rest ihp =>
    intro sum i _ hv
    by_cases h : value ≤ sum + p
    · simp only [selectIndexAux, h, if_true, List.length_cons]
      omega
    · have hne : rest ≠ [] := by
        rintro rfl
        rw [List.sum_cons, List.sum_nil, add_zero] at hv
        exact h hv
      have hv2 : value ≤ (sum + p) + rest.sum := by
        rw [List.sum_cons] at hv
        linarith
      have := ihp (sum + p) (i + 1) hne hv2
      simp only [selectIndexAux, h, if_false, List.length_cons]
      omega

lemma transWeight_pos {e2p : List (Edge × ℚ)} {s b : Int}
    (hpos : ∀ pr ∈ e2p, 0 < pr.1.weight ∧ 0 < pr.2)
    (h : edgeRel e2p s b) : 0 < transWeight e2p s b := by
  obtain ⟨pr, hpr, hs, hb⟩ := h
  rcases hf : e2p.find? (pairPred s b) with _ | pr2
  · exact absurd (by simp [pairPred, hs, hb]) (List.find?_eq_none.mp hf pr hpr)
  · have hmem := List.mem_of_find?_eq_some hf
    have hw := (hpos pr2 hmem).1
    have hp := (hpos pr2 hmem).2
    unfold transWeight pheromone heuInfo A_PAR B_PAR
    rw [hf]
    positivity

lemma probs_sum_eq_one {e2p : List (Edge × ℚ)} {s : Int}
    (hpos : ∀ pr ∈ e2p, 0 < pr.1.weight ∧ 0 < pr.2)
    (hne : availNeighbours e2p s ≠ []) :
    (((availNeighbours e2p s).map fun n => prob e2p s n)).sum = 1 := by
  have hD : 0 < ((availNeighbours e2p s).map fun n => transWeight e2p s n).sum := by
    refine List.sum_pos _ ?_ (by simpa [List.map_eq_nil_iff] using hne)
    intro x hx
    obtain ⟨n, hn, rfl⟩ := List.mem_map.mp hx
    exact transWeight_pos hpos (edgeRel_of_mem_availNeighbours hn)
  have hprob : (fun n => prob e2p s n) = fun n =>
      transWeight e2p s n * (((availNeighbours e2p s).map fun m => transWeight e2p s m).sum)⁻¹ := by
    funext n
    rw [prob, div_eq_mul_inv]
  rw [hprob, List.sum_map_mul_right, mul_inv_cancel₀ (ne_of_gt hD)]

/-- C10: whenever the neighbour list is non-empty and the stored edges
all carry positive weight and positive pheromone, the index produced by
the cumulative-probability roulette on a drawn value in `[0,1)` is
strictly below the number of neighbours, so the subsequent
`neighs[index]` access of the source is in bounds (the transition
probabilities sum to 1, hence the threshold is reached before the scan
runs off the end). -/
theorem c10_roulette_in_bounds (e2p : List (Edge × ℚ)) (s : Int) (value : ℚ)
    (hpos : ∀ pr ∈ e2p, 0 < pr.1.weight ∧ 0 < pr.2)
    (_hv0 : 0 ≤ value) (hv1 : value < 1)
    (hne : availNeighbours e2p s ≠ []) :
    selectIndex ((availNeighbours e2p s).map fun n => prob e2p s n) value <
      (availNeighbours e2p s).length := by
  have hsum := probs_sum_eq_one hpos hne
  have hlen : ((availNeighbours e2p s).map fun n => prob e2p s n) ≠ [] := by
    simpa [List.map_eq_nil_iff] using hne
  have := selectIndexAux_lt value ((availNeighbours e2p s).map fun n => prob e2p s n)
    0 0 hlen (by rw [hsum]; linarith)
  simpa [selectIndex, List.length_map] using this

/-- Witness for C10 on a concrete one-edge table with drawn value 0. -/
theorem c10_roulette_in_bounds_witness :
    (∀ pr ∈ [((⟨0, 1, 1, 1⟩ : Edge), (100 : ℚ))], 0 < pr.1.weight ∧ 0 < pr.2) ∧
    (0 : ℚ) ≤ 0 ∧ (0 : ℚ) < 1 ∧
    availNeighbours [((⟨0, 1, 1, 1⟩ : Edge), (100 : ℚ))] 0 ≠ [] ∧
    selectIndex ((availNeighbours [((⟨0, 1, 1, 1⟩ : Edge), (100 : ℚ))] 0).map
        fun n => prob [((⟨0, 1, 1, 1⟩ : Edge), (100 : ℚ))] 0 n) 0 <
      (availNeighbours [((⟨0, 1, 1, 1⟩ : Edge), (100 : ℚ))] 0).length :=
  ⟨by norm_num, le_refl 0, by norm_num, by simp [availNeighbours],
    c10_roulette_in_bounds [((⟨0, 1, 1, 1⟩ : Edge), (100 : ℚ))] 0 0
      (by norm_num) (le_refl 0) (by norm_num) (by simp [availNeighbours])⟩

/-! ## Run-wide best-path tracking -/

/-- Default `(trace, tourLength)` entry for out-of-range `List.getD`
reads in theorem statements (a failed ant's record). -/
def dfltTrace : List Int × ℚ := ([], 0)

lemma better_zero (sh : Option ℚ) : better 0 sh = false := by
  cases sh <;> simp [better]

lemma better_pos {x : ℚ} {sh : Option ℚ} (h : better x sh = true) : 0 < x := by
  cases sh <;> simp [better] at h
  · exact h
  · exact h.1

lemma better_lt {x y : ℚ} (h : better x (some y) = true) : x < y := by
  simp [better] at h
  exact h.2

lemma better_trans {x y : ℚ} {sh : Option ℚ} (h1 : better x (some y) = true)
    (h2 : better y sh = true) : better x sh = true := by
  have hx := better_pos h1
  have hxy := better_lt h1
  cases sh with
  | none => simpa [better] using hx
  | some q =>
    have := better_lt h2
    simp only [better, decide_eq_true_eq]
    exact ⟨hx, by linarith⟩

lemma better_false_ge {x y : ℚ} (h : better x (some y) = false) (hx : 0 < x) : y ≤ x := by
  simp only [better, decide_eq_false_iff_not, not_and, not_lt] at h
  exact h hx

lemma bestStep_fail (bs : List Int × Option ℚ) : bestStep bs ([], 0) = bs := by
  simp [bestStep, better_zero]

lemma entry_getD_mem {l : List (List Int × ℚ)} {j : ℕ} (h : j < l.length) :
    l.getD j dfltTrace ∈ l := by
  rw [List.getD_eq_getElem l _ h]
  exact List.getElem_mem h

/-- Characterisation of the best-path fold of `AntSystem::path`: starting
from any best/shortest state, either no entry passes the improvement
test and the state is unchanged, or the fold returns the earliest entry
whose recorded length is minimal among the passing entries (strictly
smaller than every earlier passing entry, at most every passing entry). -/
lemma bestFold_spec :
    ∀ (l : List (List Int × ℚ)) (b : List Int) (sh : Option ℚ),
      ((∀ te ∈ l, better te.2 sh = false) →
        List.foldl bestStep (b, sh) l = (b, sh)) ∧
      ((∃ te ∈ l, better te.2 sh = true) → ∃ i, i < l.length ∧
        better (l.getD i dfltTrace).2 sh = true ∧
        List.foldl bestStep (b, sh) l =
          ((l.getD i dfltTrace).1, some (l.getD i dfltTrace).2) ∧
        (∀ j, j < i → better (l.getD j dfltTrace).2 sh = true →
          (l.getD i dfltTrace).2 < (l.getD j dfltTrace).2) ∧
        (∀ j, j < l.length → better (l.getD j dfltTrace).2 sh = true →
          (l.getD i dfltTrace).2 ≤ (l.getD j dfltTrace).2)) := by
  intro l
  induction l with
  | nil =>
    intro b sh
    exact ⟨fun _ => rfl, by simp⟩
  | cons te rest ih =>
    intro b sh
    constructor
    · intro hall
      have hte : better te.2 sh = false := hall te (by simp)
      have hstep : bestStep (b, sh) te = (b, sh) := by
        simp [bestStep, hte]
      rw [List.foldl_cons, hstep]
      exact (ih b sh).1 fun te2 hte2 => hall te2 (by simp [hte2])
    · intro hex
      by_cases hte : better te.2 sh = true
      · have hstep : bestStep (b, sh) te = (te.1, some te.2) := by
          simp [bestStep, hte]
        rw [List.foldl_cons, hstep]
        by_cases hrest : ∃ te2 ∈ rest, better te2.2 (some te.2) = true
        · obtain ⟨i, hi, hq, heq, hlt, hle⟩ := (ih te.1 (some te.2)).2 hrest
          refine ⟨i + 1, by simpa using Nat.succ_lt_succ hi, ?_, ?_, ?_, ?_⟩
          · rw [List.getD_cons_succ]
            exact better_trans hq hte
          · rw [List.getD_cons_succ]
            exact heq
          · intro j hj hbj
            rcases j with _ | j2
            · rw [List.getD_cons_zero] at hbj ⊢
              rw [List.getD_cons_succ]
              exact better_lt hq
            · rw [List.getD_cons_succ] at hbj ⊢
              rw [List.getD_cons_succ]
              have hj2 : j2 < i := by omega
              by_cases hq2 : better (rest.getD j2 dfltTrace).2 (some te.2) = true
              · exact hlt j2 hj2 hq2
              · have h0 : 0 < (rest.getD j2 dfltTrace).2 := better_pos hbj
                have hge := better_false_ge (Bool.not_eq_true _ ▸ hq2) h0
                have := better_lt hq
                linarith
          · intro j hj hbj
            rcases j with _ | j2
            · rw [List.getD_cons_zero] at hbj ⊢
              rw [List.getD_cons_succ]
              exact le_of_lt (better_lt hq)
            · rw [List.getD_cons_succ] at hbj ⊢
              rw [List.getD_cons_succ]
              have hj2 : j2 < rest.length := by simpa using hj
              by_cases hq2 : better (rest.getD j2 dfltTrace).2 (some te.2) = true
              · exact hle j2 hj2 hq2
              · have h0 : 0 < (rest.getD j2 dfltTrace).2 := better_pos hbj
                have hge := better_false_ge (Bool.not_eq_true _ ▸ hq2) h0
                have := better_lt hq
                linarith
        · have hall2 : ∀ te2 ∈ rest, better te2.2 (some te.2) = false := by
            intro te2 hte2
            rcases hb : better te2.2 (some te.2) with _ | _
            · rfl
            · exact absurd ⟨te2, hte2, hb⟩ hrest
          have heq := (ih te.1 (some te.2)).1 hall2
          refine ⟨0, by simp, by simpa using hte, by simpa using heq, by omega, ?_⟩
          intro j hj hbj
          rcases j with _ | j2
          · simp
          · rw [List.getD_cons_succ] at hbj ⊢
            rw [List.getD_cons_zero]
            have hj2 : j2 < rest.length := by simpa using hj
            have h0 : 0 < (rest.getD j2 dfltTrace).2 := better_pos hbj
            exact better_false_ge (hall2 _ (entry_getD_mem hj2)) h0
      · have hstep : bestStep (b, sh) te = (b, sh) := by
          simp [bestStep, hte]
        rw [List.foldl_cons, hstep]
        have hex2 : ∃ te2 ∈ rest, better te2.2 sh = true := by
          obtain ⟨te2, hmem, hb⟩ := hex
          rcases List.mem_cons.mp hmem with rfl | hmem2
          · exact absurd hb hte
          · exact ⟨te2, hmem2, hb⟩
        obtain ⟨i, hi, hq, heq, hlt, hle⟩ := (ih b sh).2 hex2
        refine ⟨i + 1, by simpa using Nat.succ_lt_succ hi, ?_, ?_, ?_, ?_⟩
        · rw [List.getD_cons_succ]
          exact hq
        · rw [List.getD_cons_succ]
          exact heq
        · intro j hj hbj
          rcases j with _ | j2
          · rw [List.getD_cons_zero] at hbj
            exact absurd hbj hte
          · rw [List.getD_cons_succ] at hbj ⊢
            rw [List.getD_cons_succ]
            exact hlt j2 (by omega) hbj
        · intro j hj hbj
          rcases j with _ | j2
          · rw [List.getD_cons_zero] at hbj
            exact absurd hbj hte
          · rw [List.getD_cons_succ] at hbj ⊢
            rw [List.getD_cons_succ]
            exact hle j2 (by simpa using hj) hbj

/-- The interleaved ant loop of `AntSystem::path` agrees with first
collecting the round's entries and then folding the best-path update
over them in ant order (the walks never read the best-path state). -/
lemma roundAnts_eq_runAnts (e2p : List (Edge × ℚ)) (rs : ℕ → ℚ) (s e : Int) :
    ∀ (n k : ℕ) (best : List Int) (short : Option ℚ),
      roundAnts e2p rs s e n k best short =
        ((runAnts e2p rs s e n k).1,
          (List.foldl bestStep (best, short) (runAnts e2p rs s e n k).1).1,
          (List.foldl bestStep (best, short) (runAnts e2p rs s e n k).1).2,
          (runAnts e2p rs s e n k).2) := by
  intro n
  induction n with
  | zero =>
    intro k best short
    simp [roundAnts, runAnts]
  | succ n ihn =>
    intro k best short
    rw [roundAnts, runAnts]
    by_cases hsucc : 1 < (goAntRun e2p rs s e k).1.length ∧
        (goAntRun e2p rs s e k).1.head? = some s ∧
        (goAntRun e2p rs s e k).1.getLast? = some e
    · simp only [hsucc, if_true, ihn, List.foldl_cons]
      have hstep : bestStep (best, short)
          ((goAntRun e2p rs s e k).1, calcTourLength e2p (goAntRun e2p rs s e k).1) =
          (if better (calcTourLength e2p (goAntRun e2p rs s e k).1) short = true
            then ((goAntRun e2p rs s e k).1,
              some (calcTourLength e2p (goAntRun e2p rs s e k).1))
            else (best, short)) := rfl
      by_cases hb : better (calcTourLength e2p (goAntRun e2p rs s e k).1) short = true
      · simp [hstep, hb]
      · simp [hstep, hb]
    · simp only [hsucc, if_false, ihn, List.foldl_cons, bestStep_fail]

/-- The iteration loop of `AntSystem::path` computes the best-path fold
over the whole run's entry sequence. -/
lemma pathRounds_eq_bestFold (rs : ℕ → ℚ) (s e : Int) (ants : ℕ) :
    ∀ (iters : ℕ) (e2p : List (Edge × ℚ)) (best : List Int) (short : Option ℚ) (k : ℕ),
      pathRounds rs s e ants iters e2p best short k =
        (List.foldl bestStep (best, short) (runEntries rs s e ants iters e2p k)).1 := by
  intro iters
  induction iters with
  | zero =>
    intro e2p best short k
    simp [pathRounds, runEntries]
  | succ iters ihi =>
    intro e2p best short k
    rw [pathRounds, runEntries]
    simp only [roundAnts_eq_runAnts, ihi, List.foldl_append]

lemma pathACO_eq_bestFold (e2p : List (Edge × ℚ)) (ants iters : ℕ) (s e : Int)
    (rs : ℕ → ℚ) :
    pathACO e2p ants iters s e rs =
      (List.foldl bestStep ([], none) (runEntries rs s e ants iters e2p 0)).1 :=
  pathRounds_eq_bestFold rs s e ants iters e2p [] none 0

lemma updateTrails_weight_pos {e2p : List (Edge × ℚ)} {ts : List (List Int × ℚ)}
    (hw : ∀ pr ∈ e2p, 0 < pr.1.weight) :
    ∀ pr ∈ updateTrails e2p ts, 0 < pr.1.weight := by
  intro pr hpr
  simp only [updateTrails, List.mem_map] at hpr
  obtain ⟨q, ⟨p0, hp0, rfl⟩, rfl⟩ := hpr
  exact hw p0 hp0

lemma find?_pair_some {e2p : List (Edge × ℚ)} {a b : Int} (h : edgeRel e2p a b) :
    ∃ pr, e2p.find? (pairPred a b) = some pr ∧ pr ∈ e2p := by
  obtain ⟨pr, hpr, hs, hb⟩ := h
  rcases hf : e2p.find? (pairPred a b) with _ | pr2
  · exact absurd (by simp [pairPred, hs, hb]) (List.find?_eq_none.mp hf pr hpr)
  · exact ⟨pr2, rfl, List.mem_of_find?_eq_some hf⟩

lemma pairSum_nonneg {e2p : List (Edge × ℚ)} (hw : ∀ pr ∈ e2p, 0 < pr.1.weight) :
    ∀ tour : List Int, 0 ≤ pairSum e2p tour
  | [] => by simp [pairSum]
  | [_] => by simp [pairSum]
  | a :: b :: rest => by
    rw [pairSum]
    rcases hf : e2p.find? (pairPred a b) with _ | pr
    · simpa using pairSum_nonneg hw (b :: rest)
    · have h1 := le_of_lt (hw pr (List.mem_of_find?_eq_some hf))
      have h2 := pairSum_nonneg hw (b :: rest)
      simp only
      linarith

lemma pairSum_pos {e2p : List (Edge × ℚ)} (hw : ∀ pr ∈ e2p, 0 < pr.1.weight)
    {a b : Int} {rest : List Int} (hrel : edgeRel e2p a b) :
    0 < pairSum e2p (a :: b :: rest) := by
  obtain ⟨pr, hf, hmem⟩ := find?_pair_some hrel
  rw [pairSum, hf]
  have h1 := hw pr hmem
  have h2 := pairSum_nonneg hw (b :: rest)
  linarith

lemma calcTourLength_pos {e2p : List (Edge × ℚ)} {tour : List Int}
    (hw : ∀ pr ∈ e2p, 0 < pr.1.weight) (hlen : 1 < tour.length)
    (hchain : List.Chain' (edgeRel e2p) tour) : 0 < calcTourLength e2p tour := by
  unfold calcTourLength
  rw [if_neg (by omega)]
  cases tour with
  | nil => simp at hlen
  | cons a tail =>
    cases tail with
    | nil => simp at hlen
    | cons b rest =>
      exact pairSum_pos hw (List.chain'_cons.mp hchain).1

lemma goAntRun_chain {e2p : List (Edge × ℚ)} {rs : ℕ → ℚ} {s e : Int} {k : ℕ}
    (h : (goAntRun e2p rs s e k).1 ≠ []) :
    List.Chain' (edgeRel e2p) (goAntRun e2p rs s e k).1 := by
  unfold goAntRun at h ⊢
  rcases hres : goAntAux e2p rs e (fuelBound e2p) s [] k with ⟨o, kn⟩
  rw [hres] at h
  cases o with
  | none => exact absurd rfl h
  | some t =>
    have h2 : t ≠ [] := h
    show List.Chain' (edgeRel e2p) t
    rcases goAntAux_shape e2p rs e (fuelBound e2p) s [] k t kn hres
      (by simp) with h1 | ⟨_, _, _, h4⟩
    · exact absurd h1 h2
    · exact h4

/-- Properties of the recorded `(trace, tourLength)` entries of one
round: failed ants are recorded as `([], 0)`; each successful record is
a trace of length above 1 from `s` to `e` whose recorded tour length is
positive (given positive edge weights). -/
lemma runAnts_entries_props {e2p : List (Edge × ℚ)} {rs : ℕ → ℚ} {s e : Int}
    (hw : ∀ pr ∈ e2p, 0 < pr.1.weight) :
    ∀ (n k : ℕ), ∀ te ∈ (runAnts e2p rs s e n k).1,
      (te.1 = [] → te.2 = 0) ∧
      (te.1 ≠ [] → 1 < te.1.length ∧ te.1.head? = some s ∧ te.1.getLast? = some e ∧
        0 < te.2) := by
  intro n
  induction n with
  | zero =>
    intro k te hte
    simp [runAnts] at hte
  | succ n ihn =>
    intro k te hte
    rw [runAnts] at hte
    simp only [List.mem_cons] at hte
    rcases hte with rfl | hte
    · by_cases hsucc : 1 < (goAntRun e2p rs s e k).1.length ∧
          (goAntRun e2p rs s e k).1.head? = some s ∧
          (goAntRun e2p rs s e k).1.getLast? = some e
      · rw [if_pos hsucc]
        have hne : (goAntRun e2p rs s e k).1 ≠ [] := by
          intro hcon
          have h1 := hsucc.1
          rw [hcon] at h1
          simp at h1
        refine ⟨fun hnil => absurd hnil hne, fun _ => ⟨hsucc.1, hsucc.2.1, hsucc.2.2, ?_⟩⟩
        exact calcTourLength_pos hw hsucc.1 (goAntRun_chain hne)
      · rw [if_neg hsucc]
        exact ⟨fun _ => rfl, fun hne => absurd rfl hne⟩
    · exact ihn _ te hte

/-- Entry properties across the whole run: the pheromone table evolves
between rounds but its edge keys and weights are unchanged, so every
round's recorded entries satisfy the same success/failure properties. -/
lemma runEntries_props {rs : ℕ → ℚ} {s e : Int} {ants : ℕ} :
    ∀ (iters : ℕ) (e2p : List (Edge × ℚ)) (k : ℕ), (∀ pr ∈ e2p, 0 < pr.1.weight) →
      ∀ te ∈ runEntries rs s e ants iters e2p k,
        (te.1 = [] → te.2 = 0) ∧
        (te.1 ≠ [] → 1 < te.1.length ∧ te.1.head? = some s ∧ te.1.getLast? = some e ∧
          0 < te.2) := by
  intro iters
  induction iters with
  | zero =>
    intro e2p k _ te hte
    simp [runEntries] at hte
  | succ iters ihi =>
    intro e2p k hw te hte
    rw [runEntries] at hte
    rcases List.mem_append.mp hte with h1 | h1
    · exact runAnts_entries_props hw ants k te h1
    · exact ihi _ _ (updateTrails_weight_pos hw) te h1

/-- C1: under the data-model invariant that every stored edge weight is
positive, `path` returns the empty sequence when no ant produced a
successful trace anywhere in the run; otherwise it returns a successful
trace (non-empty, length above 1, first element `s`, last element `e`)
whose recorded tour length is strictly positive, strictly smaller than
the tour length of every successful trace found earlier in the run
(ties keep the earlier-found trace) and at most the tour length of every
successful trace of the whole run. -/
theorem c1_path_best (e2p : List (Edge × ℚ)) (ants iters : ℕ) (s e : Int) (rs : ℕ → ℚ)
    (hw : ∀ pr ∈ e2p, 0 < pr.1.weight) :
    ((∀ te ∈ runEntries rs s e ants iters e2p 0, te.1 = []) →
      pathACO e2p ants iters s e rs = []) ∧
    ((∃ te ∈ runEntries rs s e ants iters e2p 0, te.1 ≠ []) →
      ∃ i, i < (runEntries rs s e ants iters e2p 0).length ∧
        ((runEntries rs s e ants iters e2p 0).getD i dfltTrace).1 ≠ [] ∧
        1 < ((runEntries rs s e ants iters e2p 0).getD i dfltTrace).1.length ∧
        ((runEntries rs s e ants iters e2p 0).getD i dfltTrace).1.head? = some s ∧
        ((runEntries rs s e ants iters e2p 0).getD i dfltTrace).1.getLast? = some e ∧
        0 < ((runEntries rs s e ants iters e2p 0).getD i dfltTrace).2 ∧
        pathACO e2p ants iters s e rs =
          ((runEntries rs s e ants iters e2p 0).getD i dfltTrace).1 ∧
        (∀ j, j < i → ((runEntries rs s e ants iters e2p 0).getD j dfltTrace).1 ≠ [] →
          ((runEntries rs s e ants iters e2p 0).getD i dfltTrace).2 <
            ((runEntries rs s e ants iters e2p 0).getD j dfltTrace).2) ∧
        (∀ j, j < (runEntries rs s e ants iters e2p 0).length →
          ((runEntries rs s e ants iters e2p 0).getD j dfltTrace).1 ≠ [] →
          ((runEntries rs s e ants iters e2p 0).getD i dfltTrace).2 ≤
            ((runEntries rs s e ants iters e2p 0).getD j dfltTrace).2)) := by
  have hprops := @runEntries_props rs s e ants iters e2p 0 hw
  set L := runEntries rs s e ants iters e2p 0 with hL
  constructor
  · intro hall
    have hfold := (bestFold_spec L [] none).1 (by
      intro te hte
      have h0 := (hprops te hte).1 (hall te hte)
      rw [h0]
      exact better_zero none)
    rw [pathACO_eq_bestFold, ← hL, hfold]
  · intro hex
    have hex2 : ∃ te ∈ L, better te.2 none = true := by
      obtain ⟨te, hte, hne⟩ := hex
      have hp := ((hprops te hte).2 hne).2.2.2
      exact ⟨te, hte, by simp [better, hp]⟩
    obtain ⟨i, hi, hq, heq, hlt, hle⟩ := (bestFold_spec L [] none).2 hex2
    have hmemi := entry_getD_mem hi
    have hposi : 0 < (L.getD i dfltTrace).2 := better_pos hq
    have hnei : (L.getD i dfltTrace).1 ≠ [] := by
      intro hcon
      have h0 := (hprops _ hmemi).1 hcon
      rw [h0] at hposi
      exact lt_irrefl 0 hposi
    have hsucc := (hprops _ hmemi).2 hnei
    refine ⟨i, hi, hnei, hsucc.1, hsucc.2.1, hsucc.2.2.1, hposi, ?_, ?_, ?_⟩
    · rw [pathACO_eq_bestFold, ← hL, heq]
    · intro j hj hnej
      have hjlen : j < L.length := lt_trans hj hi
      have hposj := ((hprops _ (entry_getD_mem hjlen)).2 hnej).2.2.2
      refine hlt j hj ?_
      simp only [better]
      exact decide_eq_true hposj
    · intro j hjlen hnej
      have hposj := ((hprops _ (entry_getD_mem hjlen)).2 hnej).2.2.2
      refine hle j hjlen ?_
      simp only [better]
      exact decide_eq_true hposj

/-- Witness for C1 on a concrete one-edge topology with one ant and one
iteration. -/
theorem c1_path_best_witness :
    (∀ pr ∈ [((⟨0, 1, 1, 1⟩ : Edge), (100 : ℚ))], 0 < pr.1.weight) ∧
    (((∀ te ∈ runEntries (fun _ => 0) 0 1 1 1 [((⟨0, 1, 1, 1⟩ : Edge), (100 : ℚ))] 0,
        te.1 = []) →
      pathACO [((⟨0, 1, 1, 1⟩ : Edge), (100 : ℚ))] 1 1 0 1 (fun _ => 0) = []) ∧
    ((∃ te ∈ runEntries (fun _ => 0) 0 1 1 1 [((⟨0, 1, 1, 1⟩ : Edge), (100 : ℚ))] 0,
        te.1 ≠ []) →
      ∃ i, i < (runEntries (fun _ => 0) 0 1 1 1 [((⟨0, 1, 1, 1⟩ : Edge), (100 : ℚ))] 0).length ∧
        ((runEntries (fun _ => 0) 0 1 1 1 [((⟨0, 1, 1, 1⟩ : Edge), (100 : ℚ))] 0).getD i
          dfltTrace).1 ≠ [] ∧
        1 < ((runEntries (fun _ => 0) 0 1 1 1 [((⟨0, 1, 1, 1⟩ : Edge), (100 : ℚ))] 0).getD i
          dfltTrace).1.length ∧
        ((runEntries (fun _ => 0) 0 1 1 1 [((⟨0, 1, 1, 1⟩ : Edge), (100 : ℚ))] 0).getD i
          dfltTrace).1.head? = some 0 ∧
        ((runEntries (fun _ => 0) 0 1 1 1 [((⟨0, 1, 1, 1⟩ : Edge), (100 : ℚ))] 0).getD i
          dfltTrace).1.getLast? = some 1 ∧
        0 < ((runEntries (fun _ => 0) 0 1 1 1 [((⟨0, 1, 1, 1⟩ : Edge), (100 : ℚ))] 0).getD i
          dfltTrace).2 ∧
        pathACO [((⟨0, 1, 1, 1⟩ : Edge), (100 : ℚ))] 1 1 0 1 (fun _ => 0) =
          ((runEntries (fun _ => 0) 0 1 1 1 [((⟨0, 1, 1, 1⟩ : Edge), (100 : ℚ))] 0).getD i
            dfltTrace).1 ∧
        (∀ j, j < i →
          ((runEntries (fun _ => 0) 0 1 1 1 [((⟨0, 1, 1, 1⟩ : Edge), (100 : ℚ))] 0).getD j
            dfltTrace).1 ≠ [] →
          ((runEntries (fun _ => 0) 0 1 1 1 [((⟨0, 1, 1, 1⟩ : Edge), (100 : ℚ))] 0).getD i
            dfltTrace).2 <
            ((runEntries (fun _ => 0) 0 1 1 1 [((⟨0, 1, 1, 1⟩ : Edge), (100 : ℚ))] 0).getD j
              dfltTrace).2) ∧
        (∀ j, j < (runEntries (fun _ => 0) 0 1 1 1
            [((⟨0, 1, 1, 1⟩ : Edge), (100 : ℚ))] 0).length →
          ((runEntries (fun _ => 0) 0 1 1 1 [((⟨0, 1, 1, 1⟩ : Edge), (100 : ℚ))] 0).getD j
            dfltTrace).1 ≠ [] →
          ((runEntries (fun _ => 0) 0 1 1 1 [((⟨0, 1, 1, 1⟩ : Edge), (100 : ℚ))] 0).getD i
            dfltTrace).2 ≤
            ((runEntries (fun _ => 0) 0 1 1 1 [((⟨0, 1, 1, 1⟩ : Edge), (100 : ℚ))] 0).getD j
              dfltTrace).2))) :=
  ⟨by
      intro pr hpr
      rw [List.mem_singleton] at hpr
      subst hpr
      norm_num,
    c1_path_best [((⟨0, 1, 1, 1⟩ : Edge), (100 : ℚ))] 1 1 0 1 (fun _ => 0) (by
      intro pr hpr
      rw [List.mem_singleton] at hpr
      subst hpr
      norm_num)⟩

/-- C5: the source's walk draws every step's value from a freshly
`std::random_device`-seeded local generator (src/antsystem.cpp:190-192)
and never touches the persistent member generator declared in
src/antsystem.h:77, so no construction-time seed determines a run.  This
theorem evaluates the embedded `path` on the same graph and parameters
under two different per-step draw streams and obtains different results,
exhibiting that the outcome is a function of the per-step entropy draws,
not of graph, parameters and a construction-time seed alone. -/
theorem c5_draw_dependence :
    pathACO [(⟨0, 1, 1, 1⟩, 100), (⟨0, 2, 1, 2⟩, 100)] 1 1 0 1 (fun _ => 0) ≠
      pathACO [(⟨0, 1, 1, 1⟩, 100), (⟨0, 2, 1, 2⟩, 100)] 1 1 0 1 (fun _ => (9 : ℚ)/10) := by
  have h1 : pathACO [(⟨0, 1, 1, 1⟩, 100), (⟨0, 2, 1, 2⟩, 100)] 1 1 0 1 (fun _ => 0) =
      [0, 1] := by
    norm_num [pathACO, pathRounds, roundAnts, goAntRun, goAntAux, antChoice, fuelBound,
      nodesOf, availNeighbours, pheromone, heuInfo, transWeight, prob, pairPred,
      selectIndex, selectIndexAux, isCyclic, calcTourLength, pairSum, List.dedup,
      List.find?, List.filter, A_PAR, B_PAR, better, bestStep]
  have h2 : pathACO [(⟨0, 1, 1, 1⟩, 100), (⟨0, 2, 1, 2⟩, 100)] 1 1 0 1
      (fun _ => (9 : ℚ)/10) = [] := by
    norm_num [pathACO, pathRounds, roundAnts, goAntRun, goAntAux, antChoice, fuelBound,
      nodesOf, availNeighbours, pheromone, heuInfo, transWeight, prob, pairPred,
      selectIndex, selectIndexAux, isCyclic, calcTourLength, pairSum, List.dedup,
      List.find?, List.filter, A_PAR, B_PAR, better, bestStep]
  rw [h1, h2]
  simp

end AntSystem
